import Mathlib

/-!
Shallow embedding of `src/apps/ecdh-test/src/ui.rs` (EcdhTestUi): the bounded
message log, the hex formatters, the command dispatcher and the bottom-anchored
render layout.  External collaborators (GAM drawing surface, TRNG, the x25519
curve primitive, the diagnostic log sink) are abstracted as parameters; byte
arrays are `List Nat` with u8 semantics made explicit via `% 16` / `% 256`
where it matters.
-/

/-- Maximum number of messages to keep in history (`MAX_HISTORY` in ui.rs). -/
def MAX_HISTORY : Nat := 20

/-- Modelled from the spec: `xous::String<512>` (the §3 LogEntry, "capacity 512
bytes/characters; immutable once appended") is not under `src/`; per §4.3 a
write "truncates or fails on strings exceeding the 512-unit length cap"; we
model the write as truncation to the first 512 units. -/
def mkEntry (s : String) : String :=
  String.mk (s.data.take 512)

/-- `EcdhTestUi::add_message`: write the message into a fresh 512-capacity
string, evict index 0 when the history is full, then push (push is a no-op if
the vector is still full, matching `heapless::Vec::push(..).ok()`). -/
def add_message (hist : List String) (msg : String) : List String :=
  let xstr := mkEntry msg
  let hist2 := if hist.length ≥ MAX_HISTORY then hist.tail else hist
  if hist2.length < MAX_HISTORY then hist2 ++ [xstr] else hist2

/-- Folding a sequence of `add_message` calls, oldest first. -/
def addMsgs (hist : List String) (msgs : List String) : List String :=
  msgs.foldl add_message hist

/-- Lower-case hex digit for a nibble, as produced by Rust's `{:x}`. -/
def hexDigitChar (n : Nat) : Char :=
  if n < 10 then Char.ofNat (48 + n) else Char.ofNat (87 + n)

/-- Rust `{:02x}` on a byte: exactly two lowercase hex digits. -/
def hexByte (b : Nat) : String :=
  String.mk [hexDigitChar (b / 16 % 16), hexDigitChar (b % 16)]

/-- `EcdhTestUi::format_hex`: `write!(result, "{:02x} ", b)` for each byte. -/
def format_hex : List Nat → String
  | [] => ""
  | b :: rest => hexByte b ++ " " ++ format_hex rest

/-- The enumerated loop body of `EcdhTestUi::bytes_to_log_string`, with the
running byte index `i` explicit. -/
def btlsFrom (i : Nat) : List Nat → String
  | [] => ""
  | b :: rest =>
    (if 0 < i ∧ i % 16 = 0 then "\n" else "") ++ hexByte b ++ " " ++ btlsFrom (i + 1) rest

/-- `EcdhTestUi::bytes_to_log_string`: hex bytes with a newline inserted before
every 16th byte after the first. -/
def bytes_to_log_string (bytes : List Nat) : String :=
  btlsFrom 0 bytes

/-- §3 DiagnosticVerdict: classification of the shared secret against the two
public keys of the exchange. -/
inductive DiagnosticVerdict where
  | MatchesRemotePublic
  | MatchesLocalPublic
  | Distinct
deriving DecidableEq, Repr

/-- The classification chain of `EcdhTestUi::cmd_run` (ui.rs lines 143-152):
shared vs peer public first, then shared vs our public, else distinct. -/
def classify (shared peerPub ourPub : List Nat) : DiagnosticVerdict :=
  if shared = peerPub then .MatchesRemotePublic
  else if shared = ourPub then .MatchesLocalPublic
  else .Distinct

/-- The status line `cmd_run` appends for each verdict. -/
def verdictLine : DiagnosticVerdict → String
  | .MatchesRemotePublic => "BUG: shared == peer_pub!"
  | .MatchesLocalPublic => "BUG: shared == our_pub!"
  | .Distinct => "OK: shared != any pubkey"

/-- The ordered messages `cmd_run` appends to the history.  The curve
primitive is the external collaborator of §6: `derivePub` models
`PublicKey::from(&StaticSecret)` and `dh` models
`StaticSecret::diffie_hellman`; `ourSecret`/`peerSecret` are the two 32-byte
TRNG draws. -/
def cmdRunMessages (derivePub : List Nat → List Nat) (dh : List Nat → List Nat → List Nat)
    (ourSecret peerSecret : List Nat) : List String :=
  let ourPublic := derivePub ourSecret
  let peerPublic := derivePub peerSecret
  let shared := dh ourSecret peerPublic
  [ "=== ECDH TEST ===",
    "1. Generating our keypair...",
    "Our priv: " ++ format_hex ourSecret,
    "Our pub:  " ++ format_hex ourPublic,
    "2. Generating peer keypair...",
    "Peer pub: " ++ format_hex peerPublic,
    "3. Computing ECDH...",
    "Shared:   " ++ format_hex shared,
    "4. Checking results...",
    if shared = peerPublic then "BUG: shared == peer_pub!"
    else if shared = ourPublic then "BUG: shared == our_pub!"
    else "OK: shared != any pubkey",
    "=== TEST COMPLETE ===" ]

/-- `EcdhTestUi::cmd_run`: append the eleven trace messages in order. -/
def cmd_run (derivePub : List Nat → List Nat) (dh : List Nat → List Nat → List Nat)
    (ourSecret peerSecret : List Nat) (hist : List String) : List String :=
  addMsgs hist (cmdRunMessages derivePub dh ourSecret peerSecret)

/-- The Unicode White_Space property, the whitespace set used by Rust's
`char::is_whitespace` and hence by `str::trim`: U+0009..U+000D, U+0020,
U+0085, U+00A0, U+1680, U+2000..U+200A, U+2028, U+2029, U+202F, U+205F and
U+3000. -/
def isUnicodeWhitespace (c : Char) : Bool :=
  c.toNat == 0x09 || c.toNat == 0x0A || c.toNat == 0x0B || c.toNat == 0x0C ||
  c.toNat == 0x0D || c.toNat == 0x20 || c.toNat == 0x85 || c.toNat == 0xA0 ||
  c.toNat == 0x1680 || (0x2000 ≤ c.toNat && c.toNat ≤ 0x200A) ||
  c.toNat == 0x2028 || c.toNat == 0x2029 || c.toNat == 0x202F ||
  c.toNat == 0x205F || c.toNat == 0x3000

/-- Rust `str::trim` on the input line: drop Unicode White_Space characters
from both ends, modelled over the character list. -/
def strTrim (s : String) : String :=
  String.mk (((s.data.dropWhile isUnicodeWhitespace).reverse.dropWhile
    isUnicodeWhitespace).reverse)

/-- `EcdhTestUi::handle_input`: echo `">{input}"` first, then match the
trimmed input against the command tokens. -/
def handle_input (derivePub : List Nat → List Nat) (dh : List Nat → List Nat → List Nat)
    (ourSecret peerSecret : List Nat) (hist : List String) (input : String) : List String :=
  let echo := mkEntry (">" ++ input)
  let hist1 := add_message hist echo
  match strTrim input with
  | "run" => cmd_run derivePub dh ourSecret peerSecret hist1
  | "clear" => add_message ([] : List String) "Screen cleared"
  | _ => add_message hist1 "Type 'run' to test ECDH"

/-- The fixed layout margin of `EcdhTestUi::redraw`. -/
def margin : Int := 4

/-- The fixed line height of `EcdhTestUi::redraw`. -/
def line_height : Int := 16

/-- One posted text view of `EcdhTestUi::redraw`: the bounding box runs from
`Point::new(margin, y - line_height)` to `Point::new(sx - margin, y)`. -/
structure TextBox where
  text : String
  left : Int
  top : Int
  right : Int
  bottom : Int
deriving DecidableEq, Repr

/-- The message loop of `EcdhTestUi::redraw`: post a text view for the current
message, decrement `y` by `line_height`, and break once `y < 0`. -/
def layoutFrom (sx : Int) : Int → List String → List TextBox
  | _, [] => []
  | y, msg :: rest =>
    { text := msg, left := margin, top := y - line_height,
      right := sx - margin, bottom := y } ::
      (if y - line_height < 0 then [] else layoutFrom sx (y - line_height) rest)

/-- The render layout of `EcdhTestUi::redraw`: start at
`y = screensize.y - margin` and stack the history newest-first from the
bottom. -/
def layout (sy sx : Int) (hist : List String) : List TextBox :=
  layoutFrom sx (sy - margin) hist.reverse

/-- The UI state touched by `redraw`: screen size and message history. -/
structure UiState where
  screenX : Int
  screenY : Int
  history : List String
deriving Repr

/-- `EcdhTestUi::redraw` as a state transformer: it issues draw calls (the
returned boxes) and leaves the state untouched. -/
def redraw (st : UiState) : UiState × List TextBox :=
  (st, layout st.screenY st.screenX st.history)

/-! ### Helper lemmas about the message log -/

theorem mkEntry_idem (s : String) : mkEntry (mkEntry s) = mkEntry s := by
  show String.mk ((s.data.take 512).take 512) = String.mk (s.data.take 512)
  rw [List.take_take, min_self]

theorem mkEntry_length_le (s : String) : (mkEntry s).length ≤ 512 := by
  show (s.data.take 512).length ≤ 512
  rw [List.length_take]
  omega

theorem add_message_of_lt (hist : List String) (msg : String)
    (h : hist.length < MAX_HISTORY) :
    add_message hist msg = hist ++ [mkEntry msg] := by
  have h1 : ¬ hist.length ≥ MAX_HISTORY := by omega
  simp [add_message, h1, h]

theorem add_message_of_full (hist : List String) (msg : String)
    (h : hist.length = MAX_HISTORY) :
    add_message hist msg = hist.tail ++ [mkEntry msg] := by
  have h20 : MAX_HISTORY = 20 := rfl
  have h1 : hist.length ≥ MAX_HISTORY := le_of_eq h.symm
  have h2 : hist.length - 1 < MAX_HISTORY := by omega
  simp [add_message, h1, List.length_tail, h2]

theorem length_add_message_le (hist : List String) (msg : String)
    (h : hist.length ≤ MAX_HISTORY) :
    (add_message hist msg).length ≤ MAX_HISTORY := by
  rcases Nat.lt_or_ge hist.length MAX_HISTORY with hlt | hge
  · rw [add_message_of_lt hist msg hlt]
    simp
    omega
  · have h20 : MAX_HISTORY = 20 := rfl
    have heq : hist.length = MAX_HISTORY := le_antisymm h hge
    rw [add_message_of_full hist msg heq]
    simp [List.length_tail]
    omega

theorem addMsgs_cons (hist : List String) (m : String) (ms : List String) :
    addMsgs hist (m :: ms) = addMsgs (add_message hist m) ms := rfl

theorem length_addMsgs_le (msgs : List String) :
    ∀ hist : List String, hist.length ≤ MAX_HISTORY →
      (addMsgs hist msgs).length ≤ MAX_HISTORY := by
  induction msgs with
  | nil => intro hist h; exact h
  | cons m ms ih =>
    intro hist h
    rw [addMsgs_cons]
    exact ih _ (length_add_message_le hist m h)

theorem addMsgs_no_evict (msgs : List String) :
    ∀ hist : List String, hist.length + msgs.length ≤ MAX_HISTORY →
      addMsgs hist msgs = hist ++ msgs.map mkEntry := by
  induction msgs with
  | nil => intro hist _; simp [addMsgs]
  | cons m ms ih =>
    intro hist h
    rw [addMsgs_cons, add_message_of_lt hist m (by simp at h; omega)]
    rw [ih (hist ++ [mkEntry m]) (by simp at h ⊢; omega)]
    simp

theorem addMsgs_from_full (msgs : List String) :
    ∀ hist : List String, hist.length = MAX_HISTORY → msgs.length ≤ MAX_HISTORY →
      addMsgs hist msgs = hist.drop msgs.length ++ msgs.map mkEntry := by
  induction msgs with
  | nil => intro hist _ _; simp [addMsgs]
  | cons m ms ih =>
    intro hist hfull hlen
    have h20 : MAX_HISTORY = 20 := rfl
    rw [addMsgs_cons, add_message_of_full hist m hfull]
    have hfull2 : (hist.tail ++ [mkEntry m]).length = MAX_HISTORY := by
      simp [List.length_tail]
      omega
    rw [ih _ hfull2 (by simp at hlen; omega)]
    have hms : ms.length ≤ hist.tail.length := by
      simp only [List.length_cons] at hlen
      rw [List.length_tail]
      omega
    rw [List.drop_append_of_le_length hms]
    rw [← List.drop_one, List.drop_drop]
    simp [List.append_assoc]
    rw [Nat.add_comm 1 ms.length]

/-! ### Helper lemmas about the render layout -/

theorem layoutFrom_length_le (sx : Int) (l : List String) :
    ∀ (k : Nat) (y : Int), y ≤ 16 * k → (layoutFrom sx y l).length ≤ k + 1 := by
  induction l with
  | nil =>
    intro k y _
    simp [layoutFrom]
  | cons m rest ih =>
    intro k y hy
    by_cases hneg : y - line_height < 0
    · simp [layoutFrom, hneg]
    · have h16 : (16:Int) ≤ y := by
        simp only [line_height] at hneg
        omega
      have hk : 1 ≤ k := by
        by_contra hcon
        have : k = 0 := by omega
        subst this
        simp at hy
        omega
      obtain ⟨k', rfl⟩ : ∃ k', k = k' + 1 := ⟨k - 1, by omega⟩
      have hrec := ih k' (y - line_height) (by simp only [line_height]; push_cast at hy ⊢; omega)
      simp only [layoutFrom]
      rw [if_neg hneg]
      simp only [List.length_cons]
      omega

theorem layoutFrom_top_nonneg (sx : Int) (l : List String) :
    ∀ (y : Int) (i : Nat), i + 1 < (layoutFrom sx y l).length →
      0 ≤ ((layoutFrom sx y l).getD i ⟨"", 0, 0, 0, 0⟩).top := by
  induction l with
  | nil =>
    intro y i h
    simp [layoutFrom] at h
  | cons m rest ih =>
    intro y i h
    by_cases hneg : y - line_height < 0
    · simp [layoutFrom, hneg] at h
    · cases i with
      | zero =>
        simp only [layoutFrom, if_neg hneg, List.getD_cons_zero]
        omega
      | succ j =>
        simp only [layoutFrom, if_neg hneg, List.getD_cons_succ]
        apply ih
        simp only [layoutFrom, if_neg hneg, List.length_cons] at h
        omega

theorem layoutFrom_texts (sx : Int) (l : List String) :
    ∀ y : Int, (layoutFrom sx y l).map TextBox.text =
      l.take (layoutFrom sx y l).length := by
  induction l with
  | nil => intro y; rfl
  | cons m rest ih =>
    intro y
    by_cases hneg : y - line_height < 0
    · simp [layoutFrom, hneg]
    · simp only [layoutFrom, if_neg hneg, List.map_cons, List.length_cons,
        List.take_succ_cons]
      rw [ih (y - line_height)]

/-! ### Helper lemmas about the hex formatters -/

theorem hexDigitChar_mem_hex :
    ∀ n, n < 16 → ("0123456789abcdef".data.contains (hexDigitChar n)) = true := by
  decide

theorem hexDigitChar_ne_newline : ∀ n, n < 16 → hexDigitChar n ≠ '\n' := by
  decide

theorem hexByte_length (b : Nat) : (hexByte b).length = 2 := rfl

theorem hexByte_all_hex (b : Nat) :
    ((hexByte b).data.all (fun c => "0123456789abcdef".data.contains c)) = true := by
  show ([hexDigitChar (b / 16 % 16), hexDigitChar (b % 16)].all
    (fun c => "0123456789abcdef".data.contains c)) = true
  simp only [List.all_cons, List.all_nil, Bool.and_true]
  rw [hexDigitChar_mem_hex _ (Nat.mod_lt _ (by norm_num)),
    hexDigitChar_mem_hex _ (Nat.mod_lt _ (by norm_num))]
  rfl

theorem string_foldl_append (l : List String) :
    ∀ init : String, l.foldl (fun r s => r ++ s) init =
      init ++ l.foldl (fun r s => r ++ s) "" := by
  induction l with
  | nil => intro init; simp
  | cons s rest ih =>
    intro init
    simp only [List.foldl_cons]
    rw [ih (init ++ s), ih ("" ++ s)]
    simp [String.append_assoc]

theorem format_hex_join (bytes : List Nat) :
    format_hex bytes = String.join (bytes.map (fun b => hexByte b ++ " ")) := by
  induction bytes with
  | nil => rfl
  | cons b rest ih =>
    show hexByte b ++ " " ++ format_hex rest = _
    rw [ih]
    simp only [String.join, List.map_cons, List.foldl_cons]
    rw [string_foldl_append _ ("" ++ (hexByte b ++ " "))]
    simp [String.append_assoc]

theorem newline_not_in_format_hex (bytes : List Nat) :
    '\n' ∉ (format_hex bytes).data := by
  induction bytes with
  | nil => decide
  | cons b rest ih =>
    show '\n' ∉ (hexByte b ++ " " ++ format_hex rest).data
    simp only [String.data_append, List.mem_append]
    rintro ((h | h) | h)
    · have h' : '\n' = hexDigitChar (b / 16 % 16) ∨ '\n' = hexDigitChar (b % 16) := by
        simpa [hexByte] using h
      rcases h' with h' | h'
      · exact hexDigitChar_ne_newline _ (Nat.mod_lt _ (by norm_num)) h'.symm
      · exact hexDigitChar_ne_newline _ (Nat.mod_lt _ (by norm_num)) h'.symm
    · exact absurd h (by decide)
    · exact ih h

theorem format_hex_no_newline (bytes : List Nat) :
    ((format_hex bytes).data.contains '\n') = false := by
  simpa using newline_not_in_format_hex bytes

theorem btlsFrom_shift (bytes : List Nat) :
    ∀ i : Nat, 1 ≤ i → btlsFrom (i + 16) bytes = btlsFrom i bytes := by
  induction bytes with
  | nil => intro i _; rfl
  | cons b rest ih =>
    intro i hi
    show (if 0 < i + 16 ∧ (i + 16) % 16 = 0 then "\n" else "") ++ hexByte b ++ " " ++
        btlsFrom (i + 16 + 1) rest =
      (if 0 < i ∧ i % 16 = 0 then "\n" else "") ++ hexByte b ++ " " ++ btlsFrom (i + 1) rest
    have hcond : (0 < i + 16 ∧ (i + 16) % 16 = 0) = (0 < i ∧ i % 16 = 0) := by
      simp only [eq_iff_iff]
      constructor
      · rintro ⟨_, hmod⟩
        exact ⟨by omega, by omega⟩
      · rintro ⟨_, hmod⟩
        exact ⟨by omega, by omega⟩
    simp only [hcond]
    rw [show i + 16 + 1 = i + 1 + 16 from by omega, ih (i + 1) (by omega)]

theorem btlsFrom_chunk (bytes : List Nat) :
    ∀ k : Nat, 1 ≤ k → k ≤ 16 →
      btlsFrom k bytes = format_hex (bytes.take (16 - k)) ++
        (if bytes.drop (16 - k) = [] then "" else "\n" ++ btlsFrom 0 (bytes.drop (16 - k))) := by
  induction bytes with
  | nil =>
    intro k _ _
    simp [btlsFrom, format_hex]
  | cons b rest ih =>
    intro k h1 h2
    rcases eq_or_lt_of_le h2 with h16 | hlt
    · subst h16
      show (if 0 < 16 ∧ 16 % 16 = 0 then "\n" else "") ++ hexByte b ++ " " ++
          btlsFrom (16 + 1) rest = _
      rw [if_pos (by omega)]
      rw [show (16:Nat) + 1 = 1 + 16 from by omega, btlsFrom_shift rest 1 (by omega)]
      have htake : (16:Nat) - 16 = 0 := by omega
      rw [htake]
      simp only [List.take_zero, List.drop_zero, format_hex]
      rw [if_neg (by simp)]
      show "\n" ++ hexByte b ++ " " ++ btlsFrom 1 rest =
        "" ++ ("\n" ++ ((if 0 < 0 ∧ 0 % 16 = 0 then "\n" else "") ++ hexByte b ++ " " ++
          btlsFrom (0 + 1) rest))
      rw [if_neg (by omega)]
      simp [String.append_assoc]
    · have hk15 : k ≤ 15 := by omega
      show (if 0 < k ∧ k % 16 = 0 then "\n" else "") ++ hexByte b ++ " " ++
          btlsFrom (k + 1) rest = _
      rw [if_neg (by omega)]
      rw [ih (k + 1) (by omega) (by omega)]
      have ht : (16:Nat) - k = (15 - k) + 1 := by omega
      have ht2 : (16:Nat) - (k + 1) = 15 - k := by omega
      rw [ht, ht2, List.take_succ_cons, List.drop_succ_cons]
      show "" ++ hexByte b ++ " " ++ _ = _
      simp only [format_hex]
      simp [String.append_assoc]

theorem bytes_to_log_string_wrap (bytes : List Nat) :
    bytes_to_log_string bytes = format_hex (bytes.take 16) ++
      (if bytes.drop 16 = [] then "" else "\n" ++ bytes_to_log_string (bytes.drop 16)) := by
  cases bytes with
  | nil => simp [bytes_to_log_string, btlsFrom, format_hex]
  | cons b rest =>
    show (if 0 < 0 ∧ 0 % 16 = 0 then "\n" else "") ++ hexByte b ++ " " ++ btlsFrom (0 + 1) rest = _
    rw [if_neg (by omega)]
    rw [show (0:Nat) + 1 = 1 from rfl, btlsFrom_chunk rest 1 (by omega) (by omega)]
    have ht : (16:Nat) = 15 + 1 := by omega
    rw [ht, List.take_succ_cons, List.drop_succ_cons]
    show "" ++ hexByte b ++ " " ++ _ = _
    simp only [format_hex, bytes_to_log_string]
    have h15 : (16:Nat) - 1 = 15 := by omega
    rw [h15]
    simp [String.append_assoc]

theorem addMsgs_nil_eq_drop (msgs : List String) :
    addMsgs [] msgs = (msgs.map mkEntry).drop (msgs.length - MAX_HISTORY) := by
  induction msgs using List.reverseRecOn with
  | nil => rfl
  | append_singleton ms m ih =>
    have hstep : addMsgs [] (ms ++ [m]) = add_message (addMsgs [] ms) m := by
      simp [addMsgs, List.foldl_append]
    rcases Nat.lt_or_ge ms.length MAX_HISTORY with hlt | hge
    · have hd : ms.length - MAX_HISTORY = 0 := by omega
      have hd2 : (ms ++ [m]).length - MAX_HISTORY = 0 := by simp; omega
      rw [hstep, ih, hd, List.drop_zero,
        add_message_of_lt _ m (by simp [List.length_map]; omega), hd2, List.drop_zero]
      simp
    · have h20 : MAX_HISTORY = 20 := rfl
      have hlenR : (addMsgs [] ms).length = MAX_HISTORY := by
        rw [ih]
        simp [List.length_drop, List.length_map]
        omega
      rw [hstep, add_message_of_full _ m hlenR, ih, List.tail_drop]
      have h1 : ms.length - MAX_HISTORY + 1 = (ms ++ [m]).length - MAX_HISTORY := by
        rw [List.length_append]
        simp
        omega
      rw [h1, ← List.drop_append_of_le_length
        (by rw [List.length_append, List.length_map]; simp; omega)]
      simp

/-! ### Claim theorems -/

/-- Claim C1, counterexample: with a viewport of height 100 (margin 4,
line_height 16) and seven log entries, the layout emits seven boxes — not at
most six — and the last emitted box has top coordinate -16, which is
negative. -/
theorem C1_layout_counterexample :
    (layout 100 100 ["m1", "m2", "m3", "m4", "m5", "m6", "m7"]).length = 7 ∧
    ((layout 100 100 ["m1", "m2", "m3", "m4", "m5", "m6", "m7"]).getLast?.map
      TextBox.top) = some (-16) := by
  constructor
  · rfl
  · rfl

/-- Claim C1, amended: for a viewport of height 100 with margin 4 and
line_height 16 the layout emits at most 7 lines regardless of log size; every
emitted box except possibly the last has a nonnegative top coordinate, and
emission stops silently (without error) immediately after the first box whose
top coordinate is negative. -/
theorem C1_layout_bounded_amended (sx : Int) (hist : List String) :
    (layout 100 sx hist).length ≤ 7 ∧
    (∀ i : Nat, i + 1 < (layout 100 sx hist).length →
      0 ≤ ((layout 100 sx hist).getD i ⟨"", 0, 0, 0, 0⟩).top) := by
  constructor
  · have h := layoutFrom_length_le sx hist.reverse 6 (100 - margin)
      (by simp [margin])
    simpa [layout] using h
  · intro i hi
    exact layoutFrom_top_nonneg sx hist.reverse (100 - margin) i hi

/-- Witness for C1_layout_bounded_amended at a concrete viewport and log. -/
theorem C1_layout_bounded_amended_witness :
    (0 + 1 < (layout 100 100 ["a", "b", "c"]).length) ∧
    0 ≤ ((layout 100 100 ["a", "b", "c"]).getD 0 ⟨"", 0, 0, 0, 0⟩).top := by
  refine ⟨by decide, ?_⟩
  exact (C1_layout_bounded_amended 100 ["a", "b", "c"]).2 0 (by decide)

/-- Claim C9: redraw is read-only with respect to the message log — the state
(history included) after a redraw is exactly what it was before, the rendered
texts are an initial segment of the newest-first view of the log, and an empty
log produces no emitted text lines. -/
theorem C9_redraw_readonly (st : UiState) (sy sx : Int) :
    (redraw st).1.history = st.history ∧
    (redraw st).1 = st ∧
    layout sy sx [] = [] ∧
    ((redraw st).2.map TextBox.text) =
      st.history.reverse.take ((redraw st).2.length) := by
  refine ⟨rfl, rfl, rfl, ?_⟩
  exact layoutFrom_texts st.screenX st.history.reverse (st.screenY - margin)

set_option maxRecDepth 8000 in
/-- Claim C2: starting from the empty log, at most 20 appends give a log whose
length equals the number of appends; more than 20 appends leave the length at
exactly 20 with the oldest surviving entry the (count-19)th appended entry;
appending "msg0".."msg20" leaves exactly "msg1".."msg20" in order. -/
theorem C2_fifo_eviction_law (msgs : List String) :
    (msgs.length ≤ 20 → (addMsgs [] msgs).length = msgs.length) ∧
    (20 < msgs.length →
      (addMsgs [] msgs).length = 20 ∧
      (addMsgs [] msgs).head? = (msgs[msgs.length - 20]?).map mkEntry) ∧
    addMsgs [] ["msg0", "msg1", "msg2", "msg3", "msg4", "msg5", "msg6", "msg7",
        "msg8", "msg9", "msg10", "msg11", "msg12", "msg13", "msg14", "msg15",
        "msg16", "msg17", "msg18", "msg19", "msg20"] =
      ["msg1", "msg2", "msg3", "msg4", "msg5", "msg6", "msg7", "msg8", "msg9",
        "msg10", "msg11", "msg12", "msg13", "msg14", "msg15", "msg16", "msg17",
        "msg18", "msg19", "msg20"] := by
  refine ⟨?_, ?_, by decide⟩
  · intro h
    rw [addMsgs_nil_eq_drop]
    simp only [List.length_drop, List.length_map]
    have h20 : MAX_HISTORY = 20 := rfl
    omega
  · intro h
    have h20 : MAX_HISTORY = 20 := rfl
    constructor
    · rw [addMsgs_nil_eq_drop]
      simp only [List.length_drop, List.length_map]
      omega
    · rw [addMsgs_nil_eq_drop, List.head?_drop, List.getElem?_map, h20]

/-- Witness for C2_fifo_eviction_law: the 21-append scenario discharges the
over-capacity branch. -/
theorem C2_fifo_eviction_law_witness :
    (20 < (["msg0", "msg1", "msg2", "msg3", "msg4", "msg5", "msg6", "msg7",
        "msg8", "msg9", "msg10", "msg11", "msg12", "msg13", "msg14", "msg15",
        "msg16", "msg17", "msg18", "msg19", "msg20"] : List String).length) ∧
    (addMsgs [] ["msg0", "msg1", "msg2", "msg3", "msg4", "msg5", "msg6", "msg7",
        "msg8", "msg9", "msg10", "msg11", "msg12", "msg13", "msg14", "msg15",
        "msg16", "msg17", "msg18", "msg19", "msg20"]).length = 20 := by
  refine ⟨by decide, ?_⟩
  exact ((C2_fifo_eviction_law _).2.1 (by decide)).1

/-- Claim C3: dispatch always appends the echo entry before any command
handling, so dispatching an input whose trimmed form is "clear" on a log of
any prior length leaves the log equal to exactly ["Screen cleared"] — the echo
and all prior entries are wiped by the clear that runs after the echo append,
and the confirmation is appended after the clear. -/
theorem C3_clear_after_echo (derivePub : List Nat → List Nat)
    (dh : List Nat → List Nat → List Nat) (ourSecret peerSecret : List Nat)
    (hist : List String) (input : String) (h : strTrim input = "clear") :
    handle_input derivePub dh ourSecret peerSecret hist input = ["Screen cleared"] := by
  unfold handle_input
  rw [h]
  rfl

/-- Witness for C3_clear_after_echo: dispatching "clear" on a 5-entry log. -/
theorem C3_clear_after_echo_witness :
    (strTrim "clear" = "clear") ∧
    handle_input id (fun _ _ => []) [] [] ["a", "b", "c", "d", "e"] "clear" =
      ["Screen cleared"] :=
  ⟨by decide,
    C3_clear_after_echo id (fun _ _ => []) [] [] ["a", "b", "c", "d", "e"] "clear"
      (by decide)⟩

/-- Claim C5: command matching is exact and case-sensitive on the trimmed
input: any input whose trimmed form is neither "run" nor "clear" takes the
default branch, which appends only the fixed help entry after the echo — no
diagnostic run (the result does not depend on the curve primitive) and no log
clear (prior entries are kept). -/
theorem C5_unrecognized_default (derivePub : List Nat → List Nat)
    (dh : List Nat → List Nat → List Nat) (ourSecret peerSecret : List Nat)
    (hist : List String) (input : String)
    (h1 : strTrim input ≠ "run") (h2 : strTrim input ≠ "clear") :
    handle_input derivePub dh ourSecret peerSecret hist input =
      add_message (add_message hist (mkEntry (">" ++ input))) "Type 'run' to test ECDH" := by
  unfold handle_input
  split
  · exact absurd (by assumption) h1
  · exact absurd (by assumption) h2
  · rfl

/-- Witness for C5_unrecognized_default: dispatching "RUN" (wrong case) falls
to the default branch and appends the help text. -/
theorem C5_unrecognized_default_witness :
    (strTrim "RUN" ≠ "run") ∧ (strTrim "RUN" ≠ "clear") ∧
    handle_input id (fun _ _ => []) [] [] [] "RUN" =
      [">RUN", "Type 'run' to test ECDH"] := by
  refine ⟨by decide, by decide, ?_⟩
  exact (C5_unrecognized_default id (fun _ _ => []) [] [] [] "RUN"
    (by decide) (by decide)).trans (by decide)

/-- Claim C8: the message log length never exceeds 20 — it holds for the
initial empty log and is preserved by every append and by every command
dispatch (run, clear, and the default branch alike). -/
theorem C8_history_bound (derivePub : List Nat → List Nat)
    (dh : List Nat → List Nat → List Nat) (ourSecret peerSecret : List Nat)
    (hist : List String) (msg input : String) (h : hist.length ≤ MAX_HISTORY) :
    (([] : List String)).length ≤ MAX_HISTORY ∧
    (add_message hist msg).length ≤ MAX_HISTORY ∧
    (handle_input derivePub dh ourSecret peerSecret hist input).length ≤ MAX_HISTORY := by
  refine ⟨by simp [MAX_HISTORY], length_add_message_le hist msg h, ?_⟩
  unfold handle_input
  have hbase : (add_message hist (mkEntry (">" ++ input))).length ≤ MAX_HISTORY :=
    length_add_message_le hist _ h
  split
  · exact length_addMsgs_le _ _ hbase
  · exact length_add_message_le [] _ (by simp [MAX_HISTORY])
  · exact length_add_message_le _ _ hbase

/-- Witness for C8_history_bound at a concrete full log and input. -/
theorem C8_history_bound_witness :
    ((List.replicate 20 "x" : List String).length ≤ MAX_HISTORY) ∧
    (handle_input id (fun _ _ => []) [] [] (List.replicate 20 "x") "hello").length ≤
      MAX_HISTORY := by
  refine ⟨by decide, ?_⟩
  exact (C8_history_bound id (fun _ _ => []) [] [] (List.replicate 20 "x") "m" "hello"
    (by decide)).2.2

/-- Claim C4: for every diagnostic run the classification yields exactly one
of the three verdicts, checked shared-vs-peer-public first, then
shared-vs-our-public, else distinct; and the status line placed in the run
trace is exactly the matching verdict string. -/
theorem C4_classification (derivePub : List Nat → List Nat)
    (dh : List Nat → List Nat → List Nat) (ourSecret peerSecret : List Nat) :
    (classify (dh ourSecret (derivePub peerSecret)) (derivePub peerSecret)
        (derivePub ourSecret) = .MatchesRemotePublic ↔
      dh ourSecret (derivePub peerSecret) = derivePub peerSecret) ∧
    (classify (dh ourSecret (derivePub peerSecret)) (derivePub peerSecret)
        (derivePub ourSecret) = .MatchesLocalPublic ↔
      (dh ourSecret (derivePub peerSecret) ≠ derivePub peerSecret ∧
        dh ourSecret (derivePub peerSecret) = derivePub ourSecret)) ∧
    (classify (dh ourSecret (derivePub peerSecret)) (derivePub peerSecret)
        (derivePub ourSecret) = .Distinct ↔
      (dh ourSecret (derivePub peerSecret) ≠ derivePub peerSecret ∧
        dh ourSecret (derivePub peerSecret) ≠ derivePub ourSecret)) ∧
    ((cmdRunMessages derivePub dh ourSecret peerSecret)[9]? =
      some (verdictLine (classify (dh ourSecret (derivePub peerSecret))
        (derivePub peerSecret) (derivePub ourSecret)))) := by
  refine ⟨?_, ?_, ?_, ?_⟩
  · unfold classify
    split_ifs with h1 h2 <;> simp [h1]
  · unfold classify
    split_ifs with h1 h2
    · simp [h1]
    · exact iff_of_true rfl ⟨h1, h2⟩
    · simp [h2]
  · unfold classify
    split_ifs with h1 h2
    · simp [h1]
    · simp [h2]
    · exact iff_of_true rfl ⟨h1, h2⟩
  · have hget : (cmdRunMessages derivePub dh ourSecret peerSecret)[9]? =
        some (if dh ourSecret (derivePub peerSecret) = derivePub peerSecret
          then "BUG: shared == peer_pub!"
          else if dh ourSecret (derivePub peerSecret) = derivePub ourSecret
          then "BUG: shared == our_pub!"
          else "OK: shared != any pubkey") := rfl
    rw [hget]
    unfold classify
    split_ifs <;> rfl

/-- Witness for C4_classification at a concrete degenerate curve where the
shared secret equals the peer public key. -/
theorem C4_classification_witness :
    classify ((fun (_ _ : List Nat) => [1]) [] ((fun (_ : List Nat) => [1]) []))
        ((fun (_ : List Nat) => [1]) []) ((fun (_ : List Nat) => [1]) []) =
      DiagnosticVerdict.MatchesRemotePublic :=
  (C4_classification (fun _ => [1]) (fun _ _ => [1]) [] []).1.mpr (by decide)

/-- Claim C6: the hex formatter renders each byte as exactly two lowercase hex
digits followed by a single space (e.g. "de ad be ef "); the on-screen summary
rendering (format_hex) contains no line break, while the full-log rendering
(bytes_to_log_string) inserts a line break before every 16th byte after the
first, i.e. wraps every 16 bytes. -/
theorem C6_hex_format (bytes : List Nat) :
    format_hex bytes = String.join (bytes.map (fun b => hexByte b ++ " ")) ∧
    (∀ b : Nat, (hexByte b).length = 2 ∧
      ((hexByte b).data.all (fun c => "0123456789abcdef".data.contains c)) = true) ∧
    ((format_hex bytes).data.contains '\n') = false ∧
    (bytes_to_log_string bytes = format_hex (bytes.take 16) ++
      (if bytes.drop 16 = [] then "" else "\n" ++ bytes_to_log_string (bytes.drop 16))) ∧
    format_hex [222, 173, 190, 239] = "de ad be ef " :=
  ⟨format_hex_join bytes, fun b => ⟨hexByte_length b, hexByte_all_hex b⟩,
    format_hex_no_newline bytes, bytes_to_log_string_wrap bytes, by decide⟩

/-- Claim C7: however long the input string is, append stores a truncated
entry (at most 512 units) and corrupts no other entry: the log minus its new
last element is a suffix of the prior log (dropping at most the one evicted
oldest entry), and the new last element is exactly the truncated input. -/
theorem C7_append_no_corruption (hist : List String) (msg : String)
    (h : hist.length ≤ MAX_HISTORY) :
    (∃ k, k ≤ 1 ∧ (add_message hist msg).dropLast = hist.drop k) ∧
    (add_message hist msg).getLast? = some (mkEntry msg) ∧
    (mkEntry msg).length ≤ 512 := by
  rcases Nat.lt_or_ge hist.length MAX_HISTORY with hlt | hge
  · rw [add_message_of_lt hist msg hlt]
    exact ⟨⟨0, by omega, by simp [List.dropLast_concat]⟩,
      by simp [List.getLast?_concat], mkEntry_length_le msg⟩
  · have heq := le_antisymm h hge
    rw [add_message_of_full hist msg heq]
    refine ⟨⟨1, by omega, ?_⟩, by simp [List.getLast?_concat], mkEntry_length_le msg⟩
    rw [List.dropLast_concat, List.drop_one]

/-- Witness for C7_append_no_corruption: appending a 600-character string to a
one-entry log stores a 512-unit truncation and leaves the old entry alone. -/
theorem C7_append_no_corruption_witness :
    ((["a"] : List String).length ≤ MAX_HISTORY) ∧
    (mkEntry (String.mk (List.replicate 600 'a'))).length ≤ 512 ∧
    (add_message ["a"] (String.mk (List.replicate 600 'a'))).getLast? =
      some (mkEntry (String.mk (List.replicate 600 'a'))) := by
  refine ⟨by decide, ?_, ?_⟩
  · exact (C7_append_no_corruption ["a"] (String.mk (List.replicate 600 'a'))
      (by decide)).2.2
  · exact (C7_append_no_corruption ["a"] (String.mk (List.replicate 600 'a'))
      (by decide)).2.1

/-- Claim C10: a single dispatch of an input whose trimmed form is "run"
appends exactly 12 entries — the echo plus the 11 trace messages of cmd_run —
so on a log holding fewer than 9 entries the length grows by 12, and on a full
20-entry log the 12 oldest prior entries are evicted, leaving the 8 newest
prior entries followed by the 12 new ones. -/
theorem C10_run_appends_twelve (derivePub : List Nat → List Nat)
    (dh : List Nat → List Nat → List Nat) (ourSecret peerSecret : List Nat)
    (hist : List String) (input : String) (htrim : strTrim input = "run") :
    (cmdRunMessages derivePub dh ourSecret peerSecret).length = 11 ∧
    (hist.length = MAX_HISTORY →
      handle_input derivePub dh ourSecret peerSecret hist input =
        hist.drop 12 ++ (mkEntry (">" ++ input) ::
          (cmdRunMessages derivePub dh ourSecret peerSecret).map mkEntry) ∧
      (handle_input derivePub dh ourSecret peerSecret hist input).length = MAX_HISTORY) ∧
    (hist.length + 12 ≤ MAX_HISTORY →
      (handle_input derivePub dh ourSecret peerSecret hist input).length =
        hist.length + 12) := by
  have h20 : MAX_HISTORY = 20 := rfl
  have hmsgs : (cmdRunMessages derivePub dh ourSecret peerSecret).length = 11 := rfl
  have hhandle : handle_input derivePub dh ourSecret peerSecret hist input =
      cmd_run derivePub dh ourSecret peerSecret
        (add_message hist (mkEntry (">" ++ input))) := by
    unfold handle_input
    rw [htrim]
    rfl
  refine ⟨hmsgs, ?_, ?_⟩
  · intro hfull
    have hechoeq : add_message hist (mkEntry (">" ++ input)) =
        hist.tail ++ [mkEntry (">" ++ input)] := by
      rw [add_message_of_full hist _ hfull, mkEntry_idem]
    have hechofull : (add_message hist (mkEntry (">" ++ input))).length = MAX_HISTORY := by
      rw [hechoeq]
      simp [List.length_tail]
      omega
    constructor
    · rw [hhandle]
      unfold cmd_run
      rw [addMsgs_from_full _ _ hechofull (by rw [hmsgs]; omega), hmsgs, hechoeq]
      rw [List.drop_append_of_le_length (by rw [List.length_tail]; omega)]
      rw [← List.drop_one, List.drop_drop]
      simp [List.append_assoc]
    · rw [hhandle]
      unfold cmd_run
      rw [addMsgs_from_full _ _ hechofull (by rw [hmsgs]; omega), hmsgs]
      simp only [List.length_append, List.length_drop, List.length_map, hechofull, hmsgs]
      omega
  · intro hle
    rw [hhandle]
    unfold cmd_run
    have hlt : hist.length < MAX_HISTORY := by omega
    rw [add_message_of_lt hist _ hlt]
    rw [addMsgs_no_evict _ (hist ++ [mkEntry (mkEntry (">" ++ input))])
      (by simp only [List.length_append, List.length_cons]; rw [hmsgs]; simp; omega)]
    simp only [List.length_append, List.length_map, List.length_cons,
      List.length_nil, hmsgs]

/-- Witness for C10_run_appends_twelve: " run " dispatched on a full
20-entry log keeps the length at 20. -/
theorem C10_run_appends_twelve_witness :
    (strTrim " run " = "run") ∧
    ((List.replicate 20 "x" : List String).length = MAX_HISTORY) ∧
    (handle_input id (fun _ _ => []) [] [] (List.replicate 20 "x") " run ").length =
      MAX_HISTORY := by
  refine ⟨by decide, by decide, ?_⟩
  exact ((C10_run_appends_twelve id (fun _ _ => []) [] [] (List.replicate 20 "x")
    " run " (by decide)).2.1 (by decide)).2
